import Mathlib

/-!
Shallow embedding of the TwinCAT library-reference metadata model
(`tclibraryreference.py`, `tclibrary.py`) with correctness theorems about
its equality/ordering semantics, string parsing and latest-version
selection.
-/

/-- The error kinds surfaced by the code: `invalidFormat` and
`mismatchedLibrary` are raised as `TcLibraryException` in the source,
`typeError` stands for Python's built-in `TypeError` from comparing a
`str` with a `Version`, `fileNotFound` for `FileNotFoundError` (with its
message), `invalidLibrary` for the wrapped `TcLibraryException` of
`TcLibrary.__init__`, and `duplicatePath` for the path-uniqueness
violation. -/
inductive PyError where
  | invalidFormat
  | mismatchedLibrary
  | typeError
  | invalidLibrary
  | fileNotFound (msg : String)
  | duplicatePath
  deriving DecidableEq, Repr

/-- The `version` field of a reference: either the literal wildcard
string `"*"` or a parsed numeric version, modelled by its dotted release
segments. Modelled from the spec: the external `packaging` version type
is described as "a structured dotted-numeric version (comparable,
ordered) or the literal wildcard". -/
inductive TcVersion where
  | star
  | ver (release : List Nat)
  deriving DecidableEq, Repr

/-- Lexicographic three-way comparison of release-segment lists (a
shorter list that is a proper prefix compares as smaller). -/
def listCompare : List Nat → List Nat → Ordering
  | [], [] => Ordering.eq
  | [], _ :: _ => Ordering.lt
  | _ :: _, [] => Ordering.gt
  | a :: xs, b :: ys =>
    if a < b then Ordering.lt
    else if b < a then Ordering.gt
    else listCompare xs ys

/-- Drop trailing zero segments: `1.0` and `1.0.0` denote the same
numeric version. -/
def stripZeros (l : List Nat) : List Nat :=
  (l.reverse.dropWhile (fun n => n == 0)).reverse

/-- Modelled from the spec: numeric comparison of dotted versions as
performed by the external `packaging` library (trailing zero segments
are insignificant, remaining segments compare lexicographically). -/
def releaseCmp (a b : List Nat) : Ordering :=
  listCompare (stripZeros a) (stripZeros b)

/-- Python `==` on two `version` field values: equal wildcard strings
are equal, two parsed versions compare numerically, and a `str` never
equals a `Version`. -/
def pyVersionEqB : TcVersion → TcVersion → Bool
  | TcVersion.star, TcVersion.star => true
  | TcVersion.ver a, TcVersion.ver b => stripZeros a == stripZeros b
  | _, _ => false

/-- True iff the version value is a parsed numeric version. -/
def numericV : TcVersion → Bool
  | TcVersion.star => false
  | TcVersion.ver _ => true

/-- Python `<` on two `version` field values, as used by `sorted`:
`"*" < "*"` is string comparison (false), two parsed versions compare
numerically, and comparing a `str` with a `Version` raises `TypeError`. -/
def pyVersionLtE : TcVersion → TcVersion → Except PyError Bool
  | TcVersion.star, TcVersion.star => Except.ok false
  | TcVersion.ver a, TcVersion.ver b => Except.ok (releaseCmp a b == Ordering.lt)
  | _, _ => Except.error PyError.typeError

/-- Python `>` on two `version` field values (same mixed-type
behaviour as `pyVersionLtE`). -/
def pyVersionGtE : TcVersion → TcVersion → Except PyError Bool
  | TcVersion.star, TcVersion.star => Except.ok false
  | TcVersion.ver a, TcVersion.ver b => Except.ok (releaseCmp a b == Ordering.gt)
  | _, _ => Except.error PyError.typeError

/-- Pure strict order on version values that is false whenever a
wildcard is involved; used to state the claims about numeric-only
lists. -/
def verLtNum : TcVersion → TcVersion → Bool
  | TcVersion.ver a, TcVersion.ver b => releaseCmp a b == Ordering.lt
  | _, _ => false

/-- `TcLibraryReference`: value object holding title, version and
company (`tclibraryreference.py`, `__init__`). -/
structure TcLibraryReference where
  title : String
  version : TcVersion
  company : String
  deriving DecidableEq, Repr

/-- Python's `str.lower()` as used by `__eq__` and `__gt__`: lower-case
every character (ASCII letters, matching the titles and companies this
code deals with). -/
def strLower (s : String) : String := String.mk (s.data.map Char.toLower)

/-- `TcLibraryReference.is_any_version`: true iff the version field is
the wildcard string `"*"`. -/
def is_any_version (r : TcLibraryReference) : Bool :=
  r.version == TcVersion.star

/-- `TcLibraryReference.__eq__`: `(version equal or either side
wildcard) and titles equal lowercased and companies equal lowercased`. -/
def tcLibEq (a b : TcLibraryReference) : Bool :=
  (pyVersionEqB a.version b.version || is_any_version a || is_any_version b)
    && (strLower a.title == strLower b.title)
    && (strLower a.company == strLower b.company)

/-- `TcLibraryReference.__gt__`: `(self.is_any_version() or self.version
> other.version) and titles equal lowercased and companies equal
lowercased`; the version comparison is short-circuited away when the
left side is the wildcard, and raises `TypeError` on a `str`/`Version`
mix. -/
def tcLibGt (a b : TcLibraryReference) : Except PyError Bool := do
  let v ← if is_any_version a then pure true else pyVersionGtE a.version b.version
  pure (v && (strLower a.title == strLower b.title)
           && (strLower a.company == strLower b.company))

/-- The character for a decimal digit `d < 10`. -/
def digitChar (d : Nat) : Char := Char.ofNat (48 + d)

/-- The base-10 digits of a natural number, most significant first. -/
def natDigits (n : Nat) : List Nat :=
  if _h : n < 10 then [n]
  else natDigits (n / 10) ++ [n % 10]
  decreasing_by exact Nat.div_lt_self (by omega) (by omega)

/-- Decimal rendering of a natural number as characters. -/
def digitsOf (n : Nat) : List Char := (natDigits n).map digitChar

/-- True iff `c` is an ASCII decimal digit. -/
def isDigitC (c : Char) : Bool := 48 ≤ c.toNat && c.toNat ≤ 57

/-- Parse a non-empty all-digit character group as a natural number. -/
def parseNat (cs : List Char) : Option Nat :=
  if cs.isEmpty then none
  else if cs.all isDigitC then
    some (cs.foldl (fun a c => a * 10 + (c.toNat - 48)) 0)
  else none

/-- Split a character list on `.` separators (always returns at least
one group; empty groups witness leading/trailing/doubled dots). -/
def splitOnDot : List Char → List (List Char)
  | [] => [[]]
  | c :: cs =>
    if c = '.' then [] :: splitOnDot cs
    else
      match splitOnDot cs with
      | [] => [[c]]
      | g :: gs => (c :: g) :: gs

/-- Modelled from the spec: the external `packaging.version.parse`
routine restricted to the spec's data model, accepting exactly the
dotted-numeric strings `"<n>(.<n>)*"` and failing on everything else. -/
def parseVersion (cs : List Char) : Option (List Nat) :=
  (splitOnDot cs).mapM parseNat

/-- Dotted decimal rendering of release segments. -/
def renderRelease : List Nat → List Char
  | [] => []
  | [n] => digitsOf n
  | n :: rest => digitsOf n ++ '.' :: renderRelease rest

/-- Python `str` on a `version` field value: the wildcard renders as
itself and a parsed version renders as its dotted release. -/
def versionToString : TcVersion → String
  | TcVersion.star => "*"
  | TcVersion.ver rel => String.mk (renderRelease rel)

/-- `TcLibraryReference.__str__`: the f-string
`"<title>, <version> (<company>)"`. -/
def tcLibStr (r : TcLibraryReference) : String :=
  r.title ++ ", " ++ versionToString r.version ++ " (" ++ r.company ++ ")"

/-- Backtracking matcher for the tail `(.*)\)` of the regular
expression `_RE_LIBRARY_REF`: returns the greedy (longest) group-3
capture, i.e. the longest newline-free prefix that is followed by a
closing parenthesis; characters after that parenthesis are ignored
because the pattern is not end-anchored. -/
def g3 : List Char → Option (List Char)
  | [] => none
  | c :: cs =>
    if c = '\n' then none
    else
      match g3 cs with
      | some t => some (c :: t)
      | none => if c = ')' then some [] else none

/-- Backtracking matcher for the tail `(.*) \((.*)\)` of
`_RE_LIBRARY_REF`: the greedy group-2 capture (longest newline-free
prefix followed by a literal `" ("` such that the rest matches `g3`)
together with the group-3 capture. -/
def g2 : List Char → Option (List Char × List Char)
  | [] => none
  | c :: cs =>
    match (if c = '\n' then none
           else (g2 cs).map (fun p => (c :: p.1, p.2))) with
    | some r => some r
    | none =>
      if c = ' ' then
        match cs with
        | [] => none
        | d :: s2 =>
          if d = '(' then (g3 s2).map (fun t => (([] : List Char), t))
          else none
      else none

/-- Backtracking matcher for the full anchored pattern
`^(.*), (.*) \((.*)\)` of `_RE_LIBRARY_REF` as used by `re.match`:
greedy group 1 (longest newline-free prefix followed by a literal
`", "` such that the rest matches `g2`), then groups 2 and 3. -/
def g1 : List Char → Option (List Char × List Char × List Char)
  | [] => none
  | c :: cs =>
    match (if c = '\n' then none
           else (g1 cs).map (fun p => (c :: p.1, p.2))) with
    | some r => some r
    | none =>
      if c = ',' then
        match cs with
        | [] => none
        | d :: s2 =>
          if d = ' ' then (g2 s2).map (fun p => (([] : List Char), p.1, p.2))
          else none
      else none

/-- `TcLibraryReference.parse_string`: match `_RE_LIBRARY_REF` against
the text, keep a `"*"` version text as the wildcard and otherwise parse
it numerically; any failure raises the library exception (modelled as
`invalidFormat`). -/
def parse_string (full_name : String) :
    Except PyError (String × TcVersion × String) :=
  match g1 full_name.data with
  | none => Except.error PyError.invalidFormat
  | some (t, v, c) =>
    if v = ['*'] then Except.ok (String.mk t, TcVersion.star, String.mk c)
    else
      match parseVersion v with
      | none => Except.error PyError.invalidFormat
      | some rel => Except.ok (String.mk t, TcVersion.ver rel, String.mk c)

/-- `TcLibraryReference.from_string`: build a reference from the parsed
fields. -/
def from_string (full_name : String) : Except PyError TcLibraryReference :=
  (parse_string full_name).map (fun p => TcLibraryReference.mk p.1 p.2.1 p.2.2)

/-- One step of the stable ascending sort performed by Python's
`sorted(references, key=lambda x: x.version)`: insert `x` after all
already-placed elements whose key is not greater, propagating the
`TypeError` of a mixed `str`/`Version` comparison. -/
def insortE (x : TcLibraryReference) :
    List TcLibraryReference → Except PyError (List TcLibraryReference)
  | [] => Except.ok [x]
  | y :: ys => do
    let b ← pyVersionLtE x.version y.version
    if b then pure (x :: y :: ys)
    else do
      let r ← insortE x ys
      pure (y :: r)

/-- Stable ascending sort by version key (left fold of `insortE`),
modelling `sorted(references, key=lambda x: x.version)`. -/
def sortByVersionE :
    List TcLibraryReference → List TcLibraryReference →
    Except PyError (List TcLibraryReference)
  | acc, [] => Except.ok acc
  | acc, x :: xs => do
    let acc2 ← insortE x acc
    sortByVersionE acc2 xs

/-- `TcLibraryReference.select_latest`: `None` for the empty list, the
single element for a singleton, otherwise raise the mismatch exception
when some element differs from the first in title or company
(case-sensitive), else sort ascending by version key and take the last
element. -/
def select_latest (references : List TcLibraryReference) :
    Except PyError (Option TcLibraryReference) :=
  match references with
  | [] => Except.ok none
  | [x] => Except.ok (some x)
  | r0 :: r1 :: rest =>
    if (r0 :: r1 :: rest).any
        (fun r => (r.title != r0.title) || (r.company != r0.company)) then
      Except.error PyError.mismatchedLibrary
    else do
      let s ← sortByVersionE [] (r0 :: r1 :: rest)
      pure s.getLast?

/-- Pure counterpart of `insortE` on numeric-only keys. -/
def insortP (x : TcLibraryReference) :
    List TcLibraryReference → List TcLibraryReference
  | [] => [x]
  | y :: ys =>
    if verLtNum x.version y.version then x :: y :: ys else y :: insortP x ys

/-- Pure counterpart of `sortByVersionE`. -/
def sortByVersionP :
    List TcLibraryReference → List TcLibraryReference → List TcLibraryReference
  | acc, [] => acc
  | acc, x :: xs => sortByVersionP (insortP x acc) xs

/-- Formalisation of the spec's description of the selection result:
scanning the list left to right, keep the current champion only when
the next element's version is strictly smaller, so the scan ends at the
element with the maximum version, and at the last of those tied at the
maximum in original relative order. -/
def specPickLater (a y : TcLibraryReference) : TcLibraryReference :=
  if verLtNum y.version a.version then a else y

/-- The element the spec says `selectLatest` returns: none for the
empty list, otherwise the last maximum-version element. -/
def specLastMax : List TcLibraryReference → Option TcLibraryReference
  | [] => none
  | x :: xs => some (xs.foldl specPickLater x)

/-- True iff the list contains no comma immediately followed by a
space (the `", "` delimiter sequence of the reference string format). -/
def noCommaSpace : List Char → Bool
  | [] => true
  | [_] => true
  | a :: b :: rest => ((a != ',') || (b != ' ')) && noCommaSpace (b :: rest)

/-- Abstract filesystem as seen by `TcLibrary.__init__`: path
resolution, directory/file tests, and the results of the two external
XML extractions (the `Name` root attribute of a `browsercache` file,
and the `Title`/`ProjectVersion`/`Company` fields of a `.plcproj`
file), which the spec treats as external library capabilities. -/
structure TcFileSystem where
  resolve : String → String
  isDir : String → Bool
  pathExists : String → Bool
  browsercacheName : String → Option String
  plcprojFields : String → Option (String × String × String)

/-- Modelled from the spec: the `UniquePath` base class (not under
`src/`) enforces process-wide path uniqueness "via a process-wide
registry keyed by resolved absolute path"; registering an
already-registered path fails with `DuplicatePathError`, otherwise the
path is added to the registry. -/
def registerPath (registry : List String) (p : String) :
    Except PyError (List String) :=
  if p ∈ registry then Except.error PyError.duplicatePath
  else Except.ok (p :: registry)

/-- The field-population part of `TcLibrary.__init__`, after the
spec-modelled `UniquePath` registration succeeded with registry
`registry2`: for a directory require a `browsercache` file inside it
(else `FileNotFoundError` naming the directory) and parse its `Name`
attribute with `parse_string`, wrapping failures; for a non-directory
treat the path as a `.plcproj` file and parse its three fields with a
strict numeric version, wrapping failures. -/
def tcLibraryBody (fs : TcFileSystem) (path : String)
    (registry2 : List String) :
    Except PyError (TcLibraryReference × List String) :=
  if fs.isDir path then
    if !(fs.pathExists (path ++ "/browsercache")) then
      Except.error (PyError.fileNotFound
        ("Missing browsercache file in directory \x27" ++ path ++ "\x27"))
    else
      match fs.browsercacheName (path ++ "/browsercache") with
      | none => Except.error PyError.invalidLibrary
      | some full_name =>
        match parse_string full_name with
        | Except.error _ => Except.error PyError.invalidLibrary
        | Except.ok (t, v, c) =>
          Except.ok (TcLibraryReference.mk t v c, registry2)
  else
    match fs.plcprojFields path with
    | none => Except.error PyError.invalidLibrary
    | some (t, vs, c) =>
      match parseVersion vs.data with
      | none => Except.error PyError.invalidLibrary
      | some rel =>
        Except.ok (TcLibraryReference.mk t (TcVersion.ver rel) c, registry2)

/-- `TcLibrary.__init__`: register the resolved path (spec-modelled
`UniquePath.__init__`, which runs before any directory check), then
populate the reference fields from the filesystem. Returns the
populated reference fields and the new registry. -/
def tcLibraryInit (fs : TcFileSystem) (registry : List String)
    (path : String) : Except PyError (TcLibraryReference × List String) := do
  let registry2 ← registerPath registry (fs.resolve path)
  tcLibraryBody fs path registry2


/-- The claim-side reading of "their versions are equal": the wildcard
equals itself, and two numeric versions are equal as versions (equal
normalized releases). -/
def versionEqSpec : TcVersion → TcVersion → Prop
  | TcVersion.star, TcVersion.star => True
  | TcVersion.ver a, TcVersion.ver b => stripZeros a = stripZeros b
  | _, _ => False

/-- The claim-side reading of "a's version is numerically greater than
b's version": both are numeric versions and the left one is strictly
greater. -/
def specVersionGt : TcVersion → TcVersion → Prop :=
  fun x y => ∃ a b, x = TcVersion.ver a ∧ y = TcVersion.ver b ∧
    releaseCmp a b = Ordering.gt

/-! ## Order lemmas for the numeric version comparison -/

theorem listCompare_eq_iff (a : List Nat) :
    ∀ b, listCompare a b = Ordering.eq ↔ a = b := by
  induction a with
  | nil => intro b; cases b <;> simp [listCompare]
  | cons x xs ih =>
    intro b
    cases b with
    | nil => simp [listCompare]
    | cons y ys =>
      simp only [listCompare]
      by_cases h1 : x < y
      · simp only [if_pos h1]
        constructor
        · intro h; exact absurd h (by decide)
        · intro h
          injection h with h h2
          omega
      · by_cases h2 : y < x
        · simp only [if_neg h1, if_pos h2]
          constructor
          · intro h; exact absurd h (by decide)
          · intro h
            injection h with h h3
            omega
        · simp only [if_neg h1, if_neg h2]
          have hxy : x = y := by omega
          subst hxy
          rw [ih ys]
          constructor
          · intro h; rw [h]
          · intro h; cases h; rfl

theorem listCompare_swap (a : List Nat) :
    ∀ b, listCompare b a = (listCompare a b).swap := by
  induction a with
  | nil => intro b; cases b <;> simp [listCompare, Ordering.swap]
  | cons x xs ih =>
    intro b
    cases b with
    | nil => simp [listCompare, Ordering.swap]
    | cons y ys =>
      simp only [listCompare]
      by_cases h1 : x < y
      · have h2 : ¬ y < x := by omega
        simp [if_pos h1, if_neg h2, Ordering.swap]
      · by_cases h2 : y < x
        · simp [if_pos h2, if_neg h1, Ordering.swap]
        · simp only [if_neg h1, if_neg h2]
          exact ih ys

theorem listCompare_trans (a : List Nat) :
    ∀ b c, listCompare a b = Ordering.lt → listCompare b c = Ordering.lt →
      listCompare a c = Ordering.lt := by
  induction a with
  | nil =>
    intro b c hab hbc
    cases b with
    | nil => simpa [listCompare] using hbc
    | cons y ys =>
      cases c with
      | nil => simp [listCompare] at hbc
      | cons z zs => simp [listCompare]
  | cons x xs ih =>
    intro b c hab hbc
    cases b with
    | nil => simp [listCompare] at hab
    | cons y ys =>
      cases c with
      | nil => simp [listCompare] at hbc
      | cons z zs =>
        simp only [listCompare] at hab hbc ⊢
        by_cases h1 : x < y
        · by_cases h2 : y < z
          · have : x < z := by omega
            simp [this]
          · by_cases h3 : z < y
            · simp [if_neg h2, if_pos h3] at hbc
            · have : y = z := by omega
              subst this
              simp [h1]
        · by_cases h2 : y < x
          · simp [if_neg h1, if_pos h2] at hab
          · have hxy : x = y := by omega
            subst hxy
            simp only [if_neg h1, if_neg (by omega : ¬ x < x)] at hab
            by_cases h2 : x < z
            · simp [h2]
            · by_cases h3 : z < x
              · simp [if_neg h2, if_pos h3] at hbc
              · simp only [if_neg h2, if_neg h3] at hbc ⊢
                exact ih ys zs hab hbc

theorem releaseCmp_eq_iff (a b : List Nat) :
    releaseCmp a b = Ordering.eq ↔ stripZeros a = stripZeros b :=
  listCompare_eq_iff (stripZeros a) (stripZeros b)

theorem numericV_iff (v : TcVersion) :
    numericV v = true ↔ ∃ a, v = TcVersion.ver a := by
  cases v <;> simp [numericV]

theorem ordBeq_true (o p : Ordering) : (o == p) = true ↔ o = p := by
  cases o <;> cases p <;> decide

theorem ordBeq_false (o p : Ordering) : (o == p) = false ↔ ¬ o = p := by
  cases o <;> cases p <;> decide

theorem verLtNum_true_iff (a b : List Nat) :
    verLtNum (TcVersion.ver a) (TcVersion.ver b) = true ↔
      releaseCmp a b = Ordering.lt := by
  simp only [verLtNum]
  exact ordBeq_true _ _

theorem verLtNum_asymm (u v : TcVersion) (h : verLtNum u v = true) :
    verLtNum v u = false := by
  cases u with
  | star => simp [verLtNum] at h
  | ver a =>
    cases v with
    | star => simp [verLtNum] at h
    | ver b =>
      have h1 : releaseCmp a b = Ordering.lt := (verLtNum_true_iff a b).mp h
      simp only [verLtNum]
      rw [ordBeq_false]
      intro hc
      have h2 : listCompare (stripZeros a) (stripZeros a) = Ordering.lt :=
        listCompare_trans _ _ _ h1 hc
      have h3 : listCompare (stripZeros a) (stripZeros a) = Ordering.eq :=
        (listCompare_eq_iff _ _).mpr rfl
      rw [h3] at h2
      exact absurd h2 (by decide)

theorem verLtNum_trans (u v w : TcVersion) (h1 : verLtNum u v = true)
    (h2 : verLtNum v w = true) : verLtNum u w = true := by
  cases u with
  | star => simp [verLtNum] at h1
  | ver a =>
    cases v with
    | star => simp [verLtNum] at h1
    | ver b =>
      cases w with
      | star => simp [verLtNum] at h2
      | ver c =>
        have g1h : releaseCmp a b = Ordering.lt := (verLtNum_true_iff a b).mp h1
        have g2h : releaseCmp b c = Ordering.lt := (verLtNum_true_iff b c).mp h2
        exact (verLtNum_true_iff a c).mpr (listCompare_trans _ _ _ g1h g2h)

theorem verLtNum_connex (u v w : TcVersion) (h1 : verLtNum u v = true)
    (h2 : verLtNum w v = false) (h3 : numericV w = true) :
    verLtNum u w = true := by
  cases u with
  | star => simp [verLtNum] at h1
  | ver a =>
    cases v with
    | star => simp [verLtNum] at h1
    | ver b =>
      obtain ⟨c, rfl⟩ := (numericV_iff w).mp h3
      have h1l : releaseCmp a b = Ordering.lt := (verLtNum_true_iff a b).mp h1
      have h2l : ¬ releaseCmp c b = Ordering.lt := by
        have := h2
        simp only [verLtNum] at this
        exact (ordBeq_false _ _).mp this
      rw [verLtNum_true_iff]
      rcases ho : releaseCmp c b with _ | _ | _
      · exact absurd ho h2l
      · have hsb : stripZeros c = stripZeros b := (releaseCmp_eq_iff c b).mp ho
        unfold releaseCmp at h1l ⊢
        rw [← hsb] at h1l
        exact h1l
      · have hbc : listCompare (stripZeros b) (stripZeros c) = Ordering.lt := by
          have hs := listCompare_swap (stripZeros c) (stripZeros b)
          unfold releaseCmp at ho
          rw [hs, ho]
          decide
        exact listCompare_trans _ _ _ h1l hbc

/-! ## The stable sort of `select_latest` -/

/-- The relation that holds between earlier and later elements of the
sorted list: the later one is not strictly below the earlier one. -/
def notLtV (a b : TcLibraryReference) : Prop :=
  verLtNum b.version a.version = false

theorem insortP_ne_nil (x : TcLibraryReference)
    (l : List TcLibraryReference) : insortP x l ≠ [] := by
  cases l with
  | nil => simp [insortP]
  | cons y ys =>
    simp only [insortP]
    split <;> simp

theorem mem_insortP (x z : TcLibraryReference)
    (l : List TcLibraryReference) (h : z ∈ insortP x l) :
    z = x ∨ z ∈ l := by
  induction l with
  | nil => simpa [insortP] using h
  | cons y ys ih =>
    by_cases hb : verLtNum x.version y.version = true
    · simp only [insortP, if_pos hb] at h
      rcases List.mem_cons.mp h with h1 | h1
      · exact Or.inl h1
      · exact Or.inr h1
    · simp only [insortP, if_neg hb] at h
      rcases List.mem_cons.mp h with h1 | h1
      · exact Or.inr (by simp [h1])
      · rcases ih h1 with h2 | h2
        · exact Or.inl h2
        · exact Or.inr (by simp [h2])

theorem pairwise_insortP (x : TcLibraryReference)
    (l : List TcLibraryReference) (hp : List.Pairwise notLtV l) :
    List.Pairwise notLtV (insortP x l) := by
  induction l with
  | nil => simp [insortP, List.Pairwise]
  | cons y ys ih =>
    rcases List.pairwise_cons.mp hp with ⟨hy, hys⟩
    by_cases hb : verLtNum x.version y.version = true
    · simp only [insortP, if_pos hb]
      refine List.pairwise_cons.mpr ⟨?_, hp⟩
      intro z hz
      rcases List.mem_cons.mp hz with rfl | hz2
      · exact verLtNum_asymm _ _ hb
      · unfold notLtV
        by_contra hc
        have hzx : verLtNum z.version x.version = true := by
          simpa using hc
        have hzy : verLtNum z.version y.version = true :=
          verLtNum_trans _ _ _ hzx hb
        have hny := hy z hz2
        unfold notLtV at hny
        rw [hny] at hzy
        exact absurd hzy (by decide)
    · simp only [insortP, if_neg hb]
      refine List.pairwise_cons.mpr ⟨?_, ih hys⟩
      intro z hz
      rcases mem_insortP x z ys hz with rfl | hz2
      · unfold notLtV
        simpa using hb
      · exact hy z hz2

theorem getLast?_some_mem (l : List TcLibraryReference)
    (g : TcLibraryReference) (h : l.getLast? = some g) : g ∈ l := by
  induction l with
  | nil => simp at h
  | cons y ys ih =>
    cases ys with
    | nil =>
      simp only [List.getLast?_singleton] at h
      simp [← Option.some_inj.mp h]
    | cons z zs =>
      rw [List.getLast?_cons_cons] at h
      exact List.mem_cons_of_mem _ (ih h)

theorem getLast?_cons_ne_nil (y : TcLibraryReference)
    (l : List TcLibraryReference) (h : l ≠ []) :
    (y :: l).getLast? = l.getLast? := by
  cases l with
  | nil => exact absurd rfl h
  | cons z zs => exact List.getLast?_cons_cons

theorem insortP_allNum (x : TcLibraryReference) (l : List TcLibraryReference)
    (hx : numericV x.version = true)
    (hl : ∀ z ∈ l, numericV z.version = true) :
    ∀ z ∈ insortP x l, numericV z.version = true := by
  intro z hz
  rcases mem_insortP x z l hz with rfl | h2
  · exact hx
  · exact hl z h2

theorem insortP_getLast (x g : TcLibraryReference)
    (l : List TcLibraryReference) (hg : l.getLast? = some g)
    (hp : List.Pairwise notLtV l)
    (hl : ∀ z ∈ l, numericV z.version = true)
    (_hx : numericV x.version = true) :
    (insortP x l).getLast? = some (specPickLater g x) := by
  induction l with
  | nil => simp at hg
  | cons y ys ih =>
    rcases List.pairwise_cons.mp hp with ⟨hy, hys⟩
    by_cases hb : verLtNum x.version y.version = true
    · simp only [insortP, if_pos hb]
      have hxg : verLtNum x.version g.version = true := by
        cases ys with
        | nil =>
          have h0 : y = g := by
            simpa [List.getLast?_singleton] using hg
          rw [← h0]
          exact hb
        | cons z zs =>
          have hgys : (z :: zs).getLast? = some g := by
            rw [← List.getLast?_cons_cons (a := y)]
            exact hg
          have hgmem : g ∈ z :: zs := getLast?_some_mem _ _ hgys
          have hgy := hy g hgmem
          unfold notLtV at hgy
          exact verLtNum_connex _ _ _ hb hgy (hl g (List.mem_cons_of_mem _ hgmem))
      have : specPickLater g x = g := by
        unfold specPickLater
        rw [if_pos hxg]
      rw [this]
      rw [getLast?_cons_ne_nil x (y :: ys) (by simp)]
      exact hg
    · simp only [insortP, if_neg hb]
      cases ys with
      | nil =>
        have hgy0 : y = g := by
          simpa [List.getLast?_singleton] using hg
        have hgy : g = y := hgy0.symm
        simp only [insortP]
        have : specPickLater g x = x := by
          unfold specPickLater
          rw [hgy, if_neg hb]
        rw [this, List.getLast?_cons_cons, List.getLast?_singleton]
      | cons z zs =>
        have hgys : (z :: zs).getLast? = some g := by
          rw [← List.getLast?_cons_cons (a := y)]
          exact hg
        rw [getLast?_cons_ne_nil y _ (insortP_ne_nil x (z :: zs))]
        exact ih hgys hys (fun w hw => hl w (List.mem_cons_of_mem _ hw))

theorem sortByVersionP_getLast (xs : List TcLibraryReference) :
    ∀ (acc : List TcLibraryReference) (g : TcLibraryReference),
      acc.getLast? = some g → List.Pairwise notLtV acc →
      (∀ z ∈ acc, numericV z.version = true) →
      (∀ z ∈ xs, numericV z.version = true) →
      (sortByVersionP acc xs).getLast? = some (xs.foldl specPickLater g) := by
  induction xs with
  | nil =>
    intro acc g hg _ _ _
    simpa [sortByVersionP] using hg
  | cons x xs2 ih =>
    intro acc g hg hp hacc hxs
    have hx : numericV x.version = true := hxs x (by simp)
    simp only [sortByVersionP, List.foldl_cons]
    exact ih (insortP x acc) (specPickLater g x)
      (insortP_getLast x g acc hg hp hacc hx)
      (pairwise_insortP x acc hp)
      (insortP_allNum x acc hx hacc)
      (fun z hz => hxs z (List.mem_cons_of_mem _ hz))

theorem insortE_ok (x : TcLibraryReference) (l : List TcLibraryReference)
    (hx : numericV x.version = true)
    (hl : ∀ z ∈ l, numericV z.version = true) :
    insortE x l = Except.ok (insortP x l) := by
  induction l with
  | nil => rfl
  | cons y ys ih =>
    obtain ⟨a, ha⟩ := (numericV_iff x.version).mp hx
    obtain ⟨b, hb⟩ := (numericV_iff y.version).mp (hl y (by simp))
    simp only [insortE, insortP, ha, hb, pyVersionLtE]
    have hys := fun z hz => hl z (List.mem_cons_of_mem _ hz)
    rw [ih hys]
    by_cases hc : (releaseCmp a b == Ordering.lt) = true
    · rw [hc]
      simp only [verLtNum]
      rw [if_pos hc]
      rfl
    · have hc2 : (releaseCmp a b == Ordering.lt) = false := by
        simpa using hc
      rw [hc2]
      simp only [verLtNum]
      rw [if_neg (by simp [hc2])]
      rfl

theorem sortByVersionE_ok (xs : List TcLibraryReference) :
    ∀ acc : List TcLibraryReference,
      (∀ z ∈ acc, numericV z.version = true) →
      (∀ z ∈ xs, numericV z.version = true) →
      sortByVersionE acc xs = Except.ok (sortByVersionP acc xs) := by
  induction xs with
  | nil => intro acc _ _; rfl
  | cons x xs2 ih =>
    intro acc hacc hxs
    have hx : numericV x.version = true := hxs x (by simp)
    simp only [sortByVersionE, sortByVersionP]
    rw [insortE_ok x acc hx hacc]
    exact ih (insortP x acc) (insortP_allNum x acc hx hacc)
      (fun z hz => hxs z (List.mem_cons_of_mem _ hz))

/-! ## Computation lemmas for the Python comparisons -/

theorem pyVersionEqB_iff (u v : TcVersion) :
    pyVersionEqB u v = true ↔ versionEqSpec u v := by
  cases u <;> cases v <;> simp [pyVersionEqB, versionEqSpec]

theorem specVersionGt_iff (a b : List Nat) :
    specVersionGt (TcVersion.ver a) (TcVersion.ver b) ↔
      releaseCmp a b = Ordering.gt := by
  unfold specVersionGt
  constructor
  · rintro ⟨x, y, hx, hy, h⟩
    cases hx
    cases hy
    exact h
  · intro h
    exact ⟨a, b, rfl, rfl, h⟩

theorem tcLibGt_star (a b : TcLibraryReference)
    (h : a.version = TcVersion.star) :
    tcLibGt a b = Except.ok ((strLower a.title == strLower b.title)
      && (strLower a.company == strLower b.company)) := by
  unfold tcLibGt
  rw [show is_any_version a = true by simp [is_any_version, h]]
  rfl

theorem tcLibGt_num (a b : TcLibraryReference) (ra rb : List Nat)
    (ha : a.version = TcVersion.ver ra) (hb : b.version = TcVersion.ver rb) :
    tcLibGt a b = Except.ok ((releaseCmp ra rb == Ordering.gt)
      && (strLower a.title == strLower b.title)
      && (strLower a.company == strLower b.company)) := by
  unfold tcLibGt
  rw [show is_any_version a = false by simp [is_any_version, ha], ha, hb]
  rfl

/-! ## Claims about equality, ordering and selection -/

/-- C1: two references are equal under `__eq__` iff their titles match
case-insensitively, their companies match case-insensitively, and their
versions are equal or at least one side is the wildcard. -/
theorem claim_C1_eq_iff (a b : TcLibraryReference) :
    tcLibEq a b = true ↔
      (strLower a.title = strLower b.title ∧
        strLower a.company = strLower b.company ∧
        (versionEqSpec a.version b.version ∨
          a.version = TcVersion.star ∨ b.version = TcVersion.star)) := by
  constructor
  · intro h
    simp only [tcLibEq, Bool.and_eq_true, Bool.or_eq_true] at h
    obtain ⟨⟨hv, ht⟩, hc⟩ := h
    refine ⟨by simpa using ht, by simpa using hc, ?_⟩
    rcases hv with (hv | hv) | hv
    · exact Or.inl ((pyVersionEqB_iff _ _).mp hv)
    · exact Or.inr (Or.inl (by simpa [is_any_version] using hv))
    · exact Or.inr (Or.inr (by simpa [is_any_version] using hv))
  · rintro ⟨ht, hc, hv⟩
    simp only [tcLibEq, Bool.and_eq_true, Bool.or_eq_true]
    refine ⟨⟨?_, by simpa using ht⟩, by simpa using hc⟩
    rcases hv with hv | hv | hv
    · exact Or.inl (Or.inl ((pyVersionEqB_iff _ _).mpr hv))
    · exact Or.inl (Or.inr (by simp [is_any_version, hv]))
    · exact Or.inr (by simp [is_any_version, hv])

/-- C10: equality is not transitive: with a shared title and company,
a numeric `1.0` equals the wildcard and the wildcard equals a numeric
`2.0`, but `1.0` does not equal `2.0`. -/
theorem claim_C10_not_transitive :
    tcLibEq (TcLibraryReference.mk "Tc2_Standard" (TcVersion.ver [1, 0]) "Beckhoff")
        (TcLibraryReference.mk "Tc2_Standard" TcVersion.star "Beckhoff") = true
    ∧ tcLibEq (TcLibraryReference.mk "Tc2_Standard" TcVersion.star "Beckhoff")
        (TcLibraryReference.mk "Tc2_Standard" (TcVersion.ver [2, 0]) "Beckhoff") = true
    ∧ tcLibEq (TcLibraryReference.mk "Tc2_Standard" (TcVersion.ver [1, 0]) "Beckhoff")
        (TcLibraryReference.mk "Tc2_Standard" (TcVersion.ver [2, 0]) "Beckhoff") = false := by
  refine ⟨?_, ?_, ?_⟩ <;> decide

/-- C9: a two-element list sharing title and company but mixing the
wildcard with a numeric version makes `select_latest` raise `TypeError`
from the sort's mixed `str`/`Version` key comparison, not a result and
not one of the library's own error kinds. -/
theorem claim_C9_mixed_sort_type_error :
    select_latest [TcLibraryReference.mk "A" (TcVersion.ver [3, 3]) "X",
      TcLibraryReference.mk "A" TcVersion.star "X"] =
      Except.error PyError.typeError :=
  rfl

/-- C5: whenever two elements of the input differ in title or company
(case-sensitively), `select_latest` raises the mismatch error. -/
theorem claim_C5_mismatch (l : List TcLibraryReference)
    (x y : TcLibraryReference) (hx : x ∈ l) (hy : y ∈ l)
    (hdiff : x.title ≠ y.title ∨ x.company ≠ y.company) :
    select_latest l = Except.error PyError.mismatchedLibrary := by
  cases l with
  | nil => simp at hx
  | cons r0 rest =>
    cases rest with
    | nil =>
      have hx0 : x = r0 := by simpa using hx
      have hy0 : y = r0 := by simpa using hy
      rw [hx0, hy0] at hdiff
      rcases hdiff with h | h <;> exact absurd rfl h
    | cons r1 rest2 =>
      have hany : ((r0 :: r1 :: rest2).any
          (fun r => (r.title != r0.title) || (r.company != r0.company))) = true := by
        by_cases h0 : x.title = r0.title ∧ x.company = r0.company
        · refine List.any_eq_true.mpr ⟨y, hy, ?_⟩
          simp only [Bool.or_eq_true, bne_iff_ne, ne_eq]
          rcases hdiff with h | h
          · exact Or.inl (fun he => h (h0.1.trans he.symm))
          · exact Or.inr (fun he => h (h0.2.trans he.symm))
        · refine List.any_eq_true.mpr ⟨x, hx, ?_⟩
          simp only [Bool.or_eq_true, bne_iff_ne, ne_eq]
          by_contra hc
          push_neg at hc
          exact h0 ⟨hc.1, hc.2⟩
      simp only [select_latest]
      rw [if_pos hany]

/-- C5 witness: the spec's example list with differing titles. -/
theorem claim_C5_witness :
    select_latest [TcLibraryReference.mk "A" (TcVersion.ver [1, 0]) "X",
      TcLibraryReference.mk "B" (TcVersion.ver [1, 0]) "X"] =
      Except.error PyError.mismatchedLibrary :=
  claim_C5_mismatch _
    (TcLibraryReference.mk "A" (TcVersion.ver [1, 0]) "X")
    (TcLibraryReference.mk "B" (TcVersion.ver [1, 0]) "X")
    (by simp) (by simp) (Or.inl (by decide))

/-- C2 (amended): `select_latest` returns none on the empty list and
the single element on a singleton; on a list of length at least 2 whose
elements all share title and company and all carry numeric versions, it
returns the element with the maximum version, the last of the ties at
the maximum in original relative order (`specLastMax`). -/
theorem claim_C2_select_latest :
    (select_latest [] = Except.ok none)
    ∧ (∀ x, select_latest [x] = Except.ok (some x))
    ∧ (∀ l : List TcLibraryReference, 2 ≤ l.length →
        (∀ z ∈ l, numericV z.version = true) →
        (∀ z1 ∈ l, ∀ z2 ∈ l, z1.title = z2.title ∧ z1.company = z2.company) →
        select_latest l = Except.ok (specLastMax l)) := by
  refine ⟨rfl, fun x => rfl, ?_⟩
  intro l hlen hnum hshare
  cases l with
  | nil => simp at hlen
  | cons r0 rest =>
    cases rest with
    | nil => simp at hlen
    | cons r1 rest2 =>
      have hany : ((r0 :: r1 :: rest2).any
          (fun r => (r.title != r0.title) || (r.company != r0.company))) = false := by
        refine List.any_eq_false.mpr ?_
        intro r hr
        have hsh := hshare r hr r0 (by simp)
        simp [hsh.1, hsh.2]
      simp only [select_latest]
      rw [if_neg (by simp [hany])]
      rw [sortByVersionE_ok (r0 :: r1 :: rest2) [] (by simp) hnum]
      show Except.ok (sortByVersionP [] (r0 :: r1 :: rest2)).getLast? =
        Except.ok (specLastMax (r0 :: r1 :: rest2))
      have hmain := sortByVersionP_getLast (r1 :: rest2) [r0] r0
        (by simp)
        (List.pairwise_singleton _ _)
        (by
          intro z hz
          rcases List.mem_singleton.mp hz with rfl
          exact hnum z (by simp))
        (fun z hz => hnum z (List.mem_cons_of_mem _ hz))
      show Except.ok (sortByVersionP [r0] (r1 :: rest2)).getLast? =
        Except.ok (specLastMax (r0 :: r1 :: rest2))
      rw [hmain]
      rfl

/-- C2 counterexample: a two-element list whose elements share title
and company, one wildcard and one numeric; instead of returning an
element with a maximal version, `select_latest` raises `TypeError`. -/
theorem claim_C2_cex :
    select_latest [TcLibraryReference.mk "A" (TcVersion.ver [1, 0]) "X",
      TcLibraryReference.mk "A" TcVersion.star "X"] =
      Except.error PyError.typeError :=
  rfl

/-- C2 witness: a concrete three-element numeric list with a tie at the
maximum version (`2.0` and `2` are numerically equal); the last tie is
returned. -/
theorem claim_C2_witness :
    select_latest [TcLibraryReference.mk "A" (TcVersion.ver [1, 0]) "X",
      TcLibraryReference.mk "A" (TcVersion.ver [2, 0]) "X",
      TcLibraryReference.mk "A" (TcVersion.ver [2]) "X"] =
      Except.ok (some (TcLibraryReference.mk "A" (TcVersion.ver [2]) "X")) := by
  have h := claim_C2_select_latest.2.2
    [TcLibraryReference.mk "A" (TcVersion.ver [1, 0]) "X",
     TcLibraryReference.mk "A" (TcVersion.ver [2, 0]) "X",
     TcLibraryReference.mk "A" (TcVersion.ver [2]) "X"]
    (by decide) (by decide) (by decide)
  rw [h]
  rfl

/-- C3 (amended): whenever the `__gt__` version comparison is defined
(the left version is the wildcard, or both versions are numeric),
`a > b` holds iff titles and companies are identical and the left
version is the wildcard or numerically greater, and `a > b` is false
whenever titles or companies differ case-insensitively. When the left
version is numeric and the right one is the wildcard, `__gt__` instead
raises `TypeError` (see the counterexample). -/
theorem claim_C3_gt (a b : TcLibraryReference)
    (hcmp : a.version = TcVersion.star ∨
      (numericV a.version = true ∧ numericV b.version = true)) :
    ((a.title = b.title ∧ a.company = b.company) →
      (tcLibGt a b = Except.ok true ↔
        (a.version = TcVersion.star ∨ specVersionGt a.version b.version)))
    ∧ (¬ (strLower a.title = strLower b.title ∧
          strLower a.company = strLower b.company) →
        tcLibGt a b = Except.ok false) := by
  rcases hcmp with hstar | ⟨ha, hb⟩
  · rw [tcLibGt_star a b hstar]
    constructor
    · rintro ⟨ht, hc⟩
      rw [ht, hc]
      simp only [beq_self_eq_true, Bool.and_self]
      constructor
      · intro _; exact Or.inl hstar
      · intro _; trivial
    · intro hne
      have : ((strLower a.title == strLower b.title)
          && (strLower a.company == strLower b.company)) = false := by
        by_cases h1 : strLower a.title = strLower b.title
        · by_cases h2 : strLower a.company = strLower b.company
          · exact absurd ⟨h1, h2⟩ hne
          · simp [h2]
        · simp [h1]
      rw [this]
  · obtain ⟨ra, hra⟩ := (numericV_iff a.version).mp ha
    obtain ⟨rb, hrb⟩ := (numericV_iff b.version).mp hb
    rw [tcLibGt_num a b ra rb hra hrb]
    constructor
    · rintro ⟨ht, hc⟩
      rw [ht, hc]
      simp only [beq_self_eq_true, Bool.and_true]
      rw [hra, hrb]
      constructor
      · intro h
        refine Or.inr ((specVersionGt_iff ra rb).mpr ?_)
        have : (releaseCmp ra rb == Ordering.gt) = true := by
          injection h
        exact (ordBeq_true _ _).mp this
      · rintro (h | h)
        · exact TcVersion.noConfusion h
        · have : (releaseCmp ra rb == Ordering.gt) = true :=
            (ordBeq_true _ _).mpr ((specVersionGt_iff ra rb).mp h)
          rw [this]
    · intro hne
      have hff : ((strLower a.title == strLower b.title)
          && (strLower a.company == strLower b.company)) = false := by
        by_cases h1 : strLower a.title = strLower b.title
        · by_cases h2 : strLower a.company = strLower b.company
          · exact absurd ⟨h1, h2⟩ hne
          · simp [h2]
        · simp [h1]
      have hassoc : (((releaseCmp ra rb == Ordering.gt)
            && (strLower a.title == strLower b.title))
            && (strLower a.company == strLower b.company))
          = ((releaseCmp ra rb == Ordering.gt)
            && ((strLower a.title == strLower b.title)
              && (strLower a.company == strLower b.company))) := by
        rw [Bool.and_assoc]
      rw [hassoc, hff, Bool.and_false]

/-- C3 counterexample: with a numeric left version, a wildcard right
version and differing titles, `__gt__` raises `TypeError` instead of
returning false. -/
theorem claim_C3_cex :
    tcLibGt (TcLibraryReference.mk "A" (TcVersion.ver [1]) "C")
        (TcLibraryReference.mk "B" TcVersion.star "C") =
      Except.error PyError.typeError
    ∧ strLower (TcLibraryReference.mk "A" (TcVersion.ver [1]) "C").title ≠
        strLower (TcLibraryReference.mk "B" TcVersion.star "C").title := by
  constructor
  · rfl
  · decide

/-- C3 witness: `T 2 C > T 1 C` evaluates to true. -/
theorem claim_C3_witness :
    tcLibGt (TcLibraryReference.mk "T" (TcVersion.ver [2]) "C")
        (TcLibraryReference.mk "T" (TcVersion.ver [1]) "C") = Except.ok true := by
  have h := (claim_C3_gt
    (TcLibraryReference.mk "T" (TcVersion.ver [2]) "C")
    (TcLibraryReference.mk "T" (TcVersion.ver [1]) "C")
    (Or.inr (by decide))).1 ⟨rfl, rfl⟩
  exact h.mpr (Or.inr ⟨[2], [1], rfl, rfl, by decide⟩)

/-! ## Decimal digits and version round-trip -/

theorem natDigits_lt10 (n : Nat) : ∀ d ∈ natDigits n, d < 10 := by
  induction n using Nat.strong_induction_on with
  | _ n ih =>
    rw [natDigits]
    split
    · next h =>
      intro d hd
      have : d = n := by simpa using hd
      omega
    · next h =>
      intro d hd
      rcases List.mem_append.mp hd with h1 | h1
      · exact ih (n / 10) (Nat.div_lt_self (by omega) (by omega)) d h1
      · have : d = n % 10 := by simpa using h1
        have := Nat.mod_lt n (show 0 < 10 by omega)
        omega

theorem natDigits_ne_nil (n : Nat) : natDigits n ≠ [] := by
  rw [natDigits]
  split <;> simp

theorem natDigits_foldl (n : Nat) :
    ∀ a : Nat, (natDigits n).foldl (fun acc d => acc * 10 + d) a =
      a * 10 ^ (natDigits n).length + n := by
  induction n using Nat.strong_induction_on with
  | _ n ih =>
    intro a
    rw [natDigits]
    split
    · next h => simp
    · next h =>
      rw [List.foldl_append, List.length_append]
      rw [ih (n / 10) (Nat.div_lt_self (by omega) (by omega)) a]
      simp only [List.foldl_cons, List.foldl_nil, List.length_cons,
        List.length_nil, Nat.zero_add]
      calc (a * 10 ^ (natDigits (n / 10)).length + n / 10) * 10 + n % 10
          = a * ((10 : Nat) ^ (natDigits (n / 10)).length * 10)
            + (10 * (n / 10) + n % 10) := by ring
        _ = a * 10 ^ ((natDigits (n / 10)).length + 1) + n := by
            rw [← pow_succ, Nat.div_add_mod]

theorem digitChar_fact : ∀ d, d < 10 →
    ((digitChar d).toNat = 48 + d ∧ isDigitC (digitChar d) = true ∧
      digitChar d ≠ '.' ∧ digitChar d ≠ ',' ∧ digitChar d ≠ '(' ∧
      digitChar d ≠ ')' ∧ digitChar d ≠ '\n' ∧ digitChar d ≠ ' ' ∧
      digitChar d ≠ '*') := by
  decide

theorem digitsOf_mem (n : Nat) (c : Char) (h : c ∈ digitsOf n) :
    isDigitC c = true ∧ c ≠ '.' ∧ c ≠ ',' ∧ c ≠ '(' ∧ c ≠ ')' ∧
      c ≠ '\n' ∧ c ≠ ' ' ∧ c ≠ '*' := by
  obtain ⟨d, hd, rfl⟩ := List.mem_map.mp h
  have hlt := natDigits_lt10 n d hd
  have hf := digitChar_fact d hlt
  exact ⟨hf.2.1, hf.2.2.1, hf.2.2.2.1, hf.2.2.2.2.1, hf.2.2.2.2.2.1,
    hf.2.2.2.2.2.2.1, hf.2.2.2.2.2.2.2.1, hf.2.2.2.2.2.2.2.2⟩

theorem digitsOf_ne_nil (n : Nat) : digitsOf n ≠ [] := by
  unfold digitsOf
  intro h
  exact natDigits_ne_nil n (List.map_eq_nil_iff.mp h)

theorem parseNat_digitsOf (n : Nat) : parseNat (digitsOf n) = some n := by
  unfold parseNat
  rw [if_neg (by simpa [List.isEmpty_iff] using digitsOf_ne_nil n)]
  rw [if_pos (List.all_eq_true.mpr (fun c hc => (digitsOf_mem n c hc).1))]
  congr 1
  unfold digitsOf
  rw [List.foldl_map]
  have : ∀ (ds : List Nat), (∀ d ∈ ds, d < 10) → ∀ a : Nat,
      ds.foldl (fun acc c => acc * 10 + ((digitChar c).toNat - 48)) a =
        ds.foldl (fun acc d => acc * 10 + d) a := by
    intro ds
    induction ds with
    | nil => intro _ a; rfl
    | cons d ds2 ih =>
      intro hds a
      simp only [List.foldl_cons]
      rw [(digitChar_fact d (hds d (by simp))).1]
      rw [ih (fun x hx => hds x (List.mem_cons_of_mem _ hx))]
      congr 1
      omega
  rw [this (natDigits n) (natDigits_lt10 n) 0]
  have := natDigits_foldl n 0
  omega

theorem splitOnDot_no_dot (g : List Char) (h : '.' ∉ g) :
    splitOnDot g = [g] := by
  induction g with
  | nil => rfl
  | cons c cs ih =>
    have hc : ¬ c = '.' := fun he => h (by simp [he])
    simp only [splitOnDot, if_neg hc]
    rw [ih (fun hm => h (List.mem_cons_of_mem _ hm))]

theorem splitOnDot_append (a1 b1 : List Char) (h : '.' ∉ a1) :
    splitOnDot (a1 ++ '.' :: b1) = a1 :: splitOnDot b1 := by
  induction a1 with
  | nil => simp [splitOnDot]
  | cons c cs ih =>
    have hc : ¬ c = '.' := fun he => h (by simp [he])
    have hstep : (c :: cs) ++ '.' :: b1 = c :: (cs ++ '.' :: b1) := rfl
    rw [hstep]
    simp only [splitOnDot, if_neg hc]
    rw [ih (fun hm => h (List.mem_cons_of_mem _ hm))]

theorem renderRelease_split (rel : List Nat) (h : rel ≠ []) :
    splitOnDot (renderRelease rel) = rel.map digitsOf := by
  induction rel with
  | nil => exact absurd rfl h
  | cons n rest ih =>
    cases rest with
    | nil =>
      show splitOnDot (renderRelease [n]) = [digitsOf n]
      rw [show renderRelease [n] = digitsOf n from rfl]
      exact splitOnDot_no_dot _ (fun hm => (digitsOf_mem n '.' hm).2.1 rfl)
    | cons m rest2 =>
      show splitOnDot (digitsOf n ++ '.' :: renderRelease (m :: rest2)) = _
      rw [splitOnDot_append _ _ (fun hm => (digitsOf_mem n '.' hm).2.1 rfl)]
      rw [ih (by simp)]
      rfl

theorem mapM_parseNat_digits (rel : List Nat) :
    (rel.map digitsOf).mapM parseNat = some rel := by
  induction rel with
  | nil => rfl
  | cons n rest ih =>
    rw [List.map_cons, List.mapM_cons, parseNat_digitsOf, ih]
    rfl

theorem parseVersion_render (rel : List Nat) (h : rel ≠ []) :
    parseVersion (renderRelease rel) = some rel := by
  unfold parseVersion
  rw [renderRelease_split rel h, mapM_parseNat_digits]

theorem mem_renderRelease (rel : List Nat) (c : Char)
    (h : c ∈ renderRelease rel) : isDigitC c = true ∨ c = '.' := by
  induction rel with
  | nil => simp [renderRelease] at h
  | cons n rest ih =>
    cases rest with
    | nil =>
      rw [show renderRelease [n] = digitsOf n from rfl] at h
      exact Or.inl (digitsOf_mem n c h).1
    | cons m rest2 =>
      rw [show renderRelease (n :: m :: rest2) =
        digitsOf n ++ '.' :: renderRelease (m :: rest2) from rfl] at h
      rcases List.mem_append.mp h with h1 | h1
      · exact Or.inl (digitsOf_mem n c h1).1
      · rcases List.mem_cons.mp h1 with rfl | h2
        · exact Or.inr rfl
        · exact ih h2

theorem renderRelease_safe (rel : List Nat) (c : Char)
    (h : c ∈ renderRelease rel) :
    c ≠ ',' ∧ c ≠ '(' ∧ c ≠ '\n' ∧ c ≠ ' ' := by
  rcases mem_renderRelease rel c h with hd | rfl
  · refine ⟨?_, ?_, ?_, ?_⟩ <;> (intro he; rw [he] at hd; exact absurd hd (by decide))
  · refine ⟨by decide, by decide, by decide, by decide⟩

theorem renderRelease_ne_star (rel : List Nat) :
    renderRelease rel ≠ ['*'] := by
  intro h
  have : '*' ∈ renderRelease rel := by rw [h]; simp
  rcases mem_renderRelease rel '*' this with hd | hd
  · exact absurd hd (by decide)
  · exact absurd hd (by decide)

/-! ## Soundness and completeness of the regex matcher -/

theorem g3_sound (s : List Char) : ∀ t, g3 s = some t →
    '\n' ∉ t ∧ ∃ r, s = t ++ ')' :: r := by
  induction s with
  | nil => intro t h; simp [g3] at h
  | cons c cs ih =>
    intro t h
    simp only [g3] at h
    by_cases hc : c = '\n'
    · rw [if_pos hc] at h; cases h
    · rw [if_neg hc] at h
      cases hg : g3 cs with
      | some t2 =>
        rw [hg] at h
        have ht : t = c :: t2 := by
          have : some (c :: t2) = some t := h
          exact (Option.some_inj.mp this).symm
        obtain ⟨hn2, r, hr⟩ := ih t2 hg
        subst ht
        refine ⟨?_, r, ?_⟩
        · intro hm
          rcases List.mem_cons.mp hm with he | hm2
          · exact hc he.symm
          · exact hn2 hm2
        · rw [hr]; rfl
      | none =>
        rw [hg] at h
        by_cases hp : c = ')'
        · rw [if_pos hp] at h
          have ht : t = [] := (Option.some_inj.mp h).symm
          subst ht
          exact ⟨by simp, cs, by rw [hp]; rfl⟩
        · rw [if_neg hp] at h; cases h

theorem g3_complete (t : List Char) :
    ∀ r, '\n' ∉ t → (g3 (t ++ ')' :: r)).isSome = true := by
  induction t with
  | nil =>
    intro r _
    cases hg : g3 r with
    | some u => simp [g3, hg]
    | none => simp [g3, hg]
  | cons c t2 ih =>
    intro r h
    have hc : ¬ c = '\n' := fun he => h (by simp [he])
    have := ih r (fun hm => h (List.mem_cons_of_mem _ hm))
    cases hg : g3 (t2 ++ ')' :: r) with
    | some u => simp [g3, hc, hg]
    | none => rw [hg] at this; simp at this

theorem g2_sound (s : List Char) : ∀ v c2, g2 s = some (v, c2) →
    '\n' ∉ v ∧ '\n' ∉ c2 ∧
      ∃ r, s = v ++ ' ' :: '(' :: (c2 ++ ')' :: r) := by
  induction s with
  | nil => intro v c2 h; simp [g2] at h
  | cons c cs ih =>
    intro v c2 h
    simp only [g2] at h
    by_cases hc : c = '\n'
    · rw [if_pos hc] at h
      by_cases hs : c = ' '
      · rw [hc] at hs; cases hs
      · simp only [if_neg hs] at h; cases h
    · rw [if_neg hc] at h
      cases hg : g2 cs with
      | some p =>
        rw [hg] at h
        simp only [Option.map_some'] at h
        have hv : v = c :: p.1 ∧ c2 = p.2 := by
          have := Option.some_inj.mp h
          constructor
          · exact (congrArg Prod.fst this).symm
          · exact (congrArg Prod.snd this).symm
        obtain ⟨hn1, hn2, r, hr⟩ := ih p.1 p.2 (by rw [hg])
        rw [hv.1, hv.2]
        refine ⟨?_, hn2, r, ?_⟩
        · intro hm
          rcases List.mem_cons.mp hm with he | hm2
          · exact hc he.symm
          · exact hn1 hm2
        · rw [hr]; rfl
      | none =>
        rw [hg] at h
        simp only [Option.map_none'] at h
        by_cases hs : c = ' '
        · rw [if_pos hs] at h
          cases cs with
          | nil => cases h
          | cons d s2 =>
            have h2 : (if d = '(' then
                (g3 s2).map (fun u => (([] : List Char), u))
              else none) = some (v, c2) := h
            by_cases hd : d = '('
            · rw [if_pos hd] at h2
              cases hg3 : g3 s2 with
              | none => rw [hg3] at h2; cases h2
              | some u =>
                rw [hg3] at h2
                simp only [Option.map_some'] at h2
                have hv : v = [] ∧ c2 = u := by
                  have := Option.some_inj.mp h2
                  constructor
                  · exact (congrArg Prod.fst this).symm
                  · exact (congrArg Prod.snd this).symm
                obtain ⟨hn3, r, hr⟩ := g3_sound s2 u hg3
                rw [hv.1, hv.2]
                refine ⟨by simp, hn3, r, ?_⟩
                rw [hs, hd, hr]
                rfl
            · rw [if_neg hd] at h2; cases h2
        · rw [if_neg hs] at h; cases h

theorem g2_complete (v : List Char) :
    ∀ c2 r, '\n' ∉ v → '\n' ∉ c2 →
      (g2 (v ++ ' ' :: '(' :: (c2 ++ ')' :: r))).isSome = true := by
  induction v with
  | nil =>
    intro c2 r _ hc2
    have hstep : g2 (' ' :: '(' :: (c2 ++ ')' :: r)) =
        match (g2 ('(' :: (c2 ++ ')' :: r))).map (fun p => (' ' :: p.1, p.2)) with
        | some q => some q
        | none => (g3 (c2 ++ ')' :: r)).map (fun u => (([] : List Char), u)) :=
      rfl
    show (g2 (' ' :: '(' :: (c2 ++ ')' :: r))).isSome = true
    rw [hstep]
    cases hg : g2 ('(' :: (c2 ++ ')' :: r)) with
    | some p => simp
    | none =>
      have h3 := g3_complete c2 r hc2
      cases hg3 : g3 (c2 ++ ')' :: r) with
      | none => rw [hg3] at h3; simp at h3
      | some u => simp [hg3]
  | cons c v2 ih =>
    intro c2 r h hc2
    have hc : ¬ c = '\n' := fun he => h (by simp [he])
    have := ih c2 r (fun hm => h (List.mem_cons_of_mem _ hm)) hc2
    cases hg : g2 (v2 ++ ' ' :: '(' :: (c2 ++ ')' :: r)) with
    | some p => simp [g2, hc, hg]
    | none => rw [hg] at this; simp at this

theorem g1_sound (s : List Char) : ∀ t v c2, g1 s = some (t, v, c2) →
    '\n' ∉ t ∧ '\n' ∉ v ∧ '\n' ∉ c2 ∧
      ∃ r, s = t ++ ',' :: ' ' :: (v ++ ' ' :: '(' :: (c2 ++ ')' :: r)) := by
  induction s with
  | nil => intro t v c2 h; simp [g1] at h
  | cons c cs ih =>
    intro t v c2 h
    simp only [g1] at h
    by_cases hc : c = '\n'
    · rw [if_pos hc] at h
      by_cases hs : c = ','
      · rw [hc] at hs; cases hs
      · simp only [if_neg hs] at h; cases h
    · rw [if_neg hc] at h
      cases hg : g1 cs with
      | some p =>
        rw [hg] at h
        simp only [Option.map_some'] at h
        have hv : t = c :: p.1 ∧ v = p.2.1 ∧ c2 = p.2.2 := by
          have := Option.some_inj.mp h
          refine ⟨(congrArg Prod.fst this).symm, ?_, ?_⟩
          · exact (congrArg (fun q => q.2.1) this).symm
          · exact (congrArg (fun q => q.2.2) this).symm
        obtain ⟨hn1, hn2, hn3, r, hr⟩ := ih p.1 p.2.1 p.2.2 (by rw [hg])
        rw [hv.1, hv.2.1, hv.2.2]
        refine ⟨?_, hn2, hn3, r, ?_⟩
        · intro hm
          rcases List.mem_cons.mp hm with he | hm2
          · exact hc he.symm
          · exact hn1 hm2
        · rw [hr]; rfl
      | none =>
        rw [hg] at h
        simp only [Option.map_none'] at h
        by_cases hs : c = ','
        · rw [if_pos hs] at h
          cases cs with
          | nil => cases h
          | cons d s2 =>
            have h2 : (if d = ' ' then
                (g2 s2).map (fun p => (([] : List Char), p.1, p.2))
              else none) = some (t, v, c2) := h
            by_cases hd : d = ' '
            · rw [if_pos hd] at h2
              cases hg2 : g2 s2 with
              | none => rw [hg2] at h2; cases h2
              | some p =>
                rw [hg2] at h2
                simp only [Option.map_some'] at h2
                have hv : t = [] ∧ v = p.1 ∧ c2 = p.2 := by
                  have := Option.some_inj.mp h2
                  refine ⟨(congrArg Prod.fst this).symm, ?_, ?_⟩
                  · exact (congrArg (fun q => q.2.1) this).symm
                  · exact (congrArg (fun q => q.2.2) this).symm
                obtain ⟨hn1, hn2, r, hr⟩ := g2_sound s2 p.1 p.2 (by rw [hg2])
                rw [hv.1, hv.2.1, hv.2.2]
                refine ⟨by simp, hn1, hn2, r, ?_⟩
                rw [hs, hd, hr]
                rfl
            · rw [if_neg hd] at h2; cases h2
        · rw [if_neg hs] at h; cases h

theorem g1_complete (t : List Char) :
    ∀ v c2 r, '\n' ∉ t → '\n' ∉ v → '\n' ∉ c2 →
      (g1 (t ++ ',' :: ' ' :: (v ++ ' ' :: '(' :: (c2 ++ ')' :: r)))).isSome
        = true := by
  induction t with
  | nil =>
    intro v c2 r _ hv hc2
    have hstep : g1 (',' :: ' ' :: (v ++ ' ' :: '(' :: (c2 ++ ')' :: r))) =
        match (g1 (' ' :: (v ++ ' ' :: '(' :: (c2 ++ ')' :: r)))).map
            (fun p => (',' :: p.1, p.2)) with
        | some q => some q
        | none => (g2 (v ++ ' ' :: '(' :: (c2 ++ ')' :: r))).map
            (fun p => (([] : List Char), p.1, p.2)) :=
      rfl
    show (g1 (',' :: ' ' :: (v ++ ' ' :: '(' :: (c2 ++ ')' :: r)))).isSome = true
    rw [hstep]
    cases hg : g1 (' ' :: (v ++ ' ' :: '(' :: (c2 ++ ')' :: r))) with
    | some p => simp
    | none =>
      have h2 := g2_complete v c2 r hv hc2
      cases hg2 : g2 (v ++ ' ' :: '(' :: (c2 ++ ')' :: r)) with
      | none => rw [hg2] at h2; simp at h2
      | some p => simp [hg2]
  | cons c t2 ih =>
    intro v c2 r h hv hc2
    have hc : ¬ c = '\n' := fun he => h (by simp [he])
    have := ih v c2 r (fun hm => h (List.mem_cons_of_mem _ hm)) hv hc2
    cases hg : g1 (t2 ++ ',' :: ' ' :: (v ++ ' ' :: '(' :: (c2 ++ ')' :: r))) with
    | some p => simp [g1, hc, hg]
    | none => rw [hg] at this; simp at this

/-! ## Exact greedy captures on canonically rendered strings -/

theorem g3_exact (c2 : List Char) (h : '\n' ∉ c2) :
    g3 (c2 ++ [')']) = some c2 := by
  induction c2 with
  | nil => rfl
  | cons c cs ih =>
    have hc : ¬ c = '\n' := fun he => h (by simp [he])
    have hih := ih (fun hm => h (List.mem_cons_of_mem _ hm))
    show g3 (c :: (cs ++ [')'])) = some (c :: cs)
    simp only [g3, if_neg hc, hih]

theorem g2_nomatch_paren (c2 : List Char) (h : '(' ∉ c2) :
    g2 ('(' :: (c2 ++ [')'])) = none := by
  cases hg : g2 ('(' :: (c2 ++ [')'])) with
  | none => rfl
  | some p =>
    obtain ⟨hn1, hn2, r, hr⟩ := g2_sound _ p.1 p.2 (by rw [hg])
    exfalso
    cases hv : p.1 with
    | nil =>
      rw [hv] at hr
      simp only [List.nil_append] at hr
      have hhd := congrArg (fun l => l.head?) hr
      simp at hhd
    | cons d v2 =>
      rw [hv] at hr
      have htl : c2 ++ [')'] = v2 ++ ' ' :: '(' :: (p.2 ++ ')' :: r) := by
        have := congrArg (fun l => l.tail) hr
        simpa using this
      have hin : '(' ∈ v2 ++ ' ' :: '(' :: (p.2 ++ ')' :: r) := by simp
      rw [← htl] at hin
      rcases List.mem_append.mp hin with h1 | h1
      · exact h h1
      · rcases List.mem_singleton.mp h1 with he
        cases he

theorem g2_exact (v : List Char) :
    ∀ c2, '\n' ∉ v → '\n' ∉ c2 → '(' ∉ c2 →
      g2 (v ++ ' ' :: '(' :: (c2 ++ [')'])) = some (v, c2) := by
  induction v with
  | nil =>
    intro c2 _ hc2 hp
    have hstep : g2 (' ' :: '(' :: (c2 ++ [')'])) =
        match (g2 ('(' :: (c2 ++ [')']))).map (fun p => (' ' :: p.1, p.2)) with
        | some q => some q
        | none => (g3 (c2 ++ [')'])).map (fun u => (([] : List Char), u)) :=
      rfl
    show g2 (' ' :: '(' :: (c2 ++ [')'])) = some ([], c2)
    rw [hstep, g2_nomatch_paren c2 hp, g3_exact c2 hc2]
    rfl
  | cons c v2 ih =>
    intro c2 h hc2 hp
    have hc : ¬ c = '\n' := fun he => h (by simp [he])
    have hih := ih c2 (fun hm => h (List.mem_cons_of_mem _ hm)) hc2 hp
    show g2 (c :: (v2 ++ ' ' :: '(' :: (c2 ++ [')']))) = some (c :: v2, c2)
    simp only [g2, if_neg hc, hih, Option.map_some']

/-! ## No comma-space sequences -/

theorem ncs_cons_false (c : Char) (l : List Char)
    (h : noCommaSpace l = false) : noCommaSpace (c :: l) = false := by
  cases l with
  | nil => simp [noCommaSpace] at h
  | cons b l2 =>
    show (((c != ',') || (b != ' ')) && noCommaSpace (b :: l2)) = false
    rw [h, Bool.and_false]

theorem ncs_decomp (t rest : List Char) :
    noCommaSpace (t ++ ',' :: ' ' :: rest) = false := by
  induction t with
  | nil =>
    show ((((',' : Char) != ',') || ((' ' : Char) != ' '))
      && noCommaSpace (' ' :: rest)) = false
    simp
  | cons c t2 ih =>
    show noCommaSpace (c :: (t2 ++ ',' :: ' ' :: rest)) = false
    exact ncs_cons_false c _ ih

theorem g1_none_of_ncs (s : List Char) (h : noCommaSpace s = true) :
    g1 s = none := by
  cases hg : g1 s with
  | none => rfl
  | some p =>
    obtain ⟨_, _, _, r, hr⟩ := g1_sound s p.1 p.2.1 p.2.2 (by rw [hg])
    rw [hr] at h
    rw [ncs_decomp] at h
    cases h

theorem ncs_cons_of_ne_comma (a : Char) (l : List Char) (ha : a ≠ ',')
    (h : noCommaSpace l = true) : noCommaSpace (a :: l) = true := by
  cases l with
  | nil => rfl
  | cons b l2 =>
    show (((a != ',') || (b != ' ')) && noCommaSpace (b :: l2)) = true
    rw [h, Bool.and_true, Bool.or_eq_true]
    exact Or.inl (by simpa using ha)

theorem ncs_of_append_no_comma (v rest : List Char) (hv : ',' ∉ v)
    (hrest : noCommaSpace rest = true) : noCommaSpace (v ++ rest) = true := by
  induction v with
  | nil => simpa using hrest
  | cons c v2 ih =>
    show noCommaSpace (c :: (v2 ++ rest)) = true
    exact ncs_cons_of_ne_comma c _ (fun he => hv (by simp [he]))
      (ih (fun hm => hv (List.mem_cons_of_mem _ hm)))

theorem ncs_append_one (l : List Char) (b0 : Char)
    (h : noCommaSpace l = true) (hb : b0 ≠ ' ') :
    noCommaSpace (l ++ [b0]) = true := by
  induction l with
  | nil => rfl
  | cons c l2 ih =>
    cases l2 with
    | nil =>
      show (((c != ',') || (b0 != ' ')) && noCommaSpace [b0]) = true
      have : noCommaSpace [b0] = true := rfl
      rw [this, Bool.and_true, Bool.or_eq_true]
      exact Or.inr (by simpa using hb)
    | cons b l3 =>
      have hh : noCommaSpace (b :: l3) = true ∧ ((c != ',') || (b != ' ')) = true := by
        have := h
        rw [show noCommaSpace (c :: b :: l3)
          = (((c != ',') || (b != ' ')) && noCommaSpace (b :: l3)) from rfl] at this
        rw [Bool.and_eq_true] at this
        exact ⟨this.2, this.1⟩
      show (((c != ',') || (b != ' ')) && noCommaSpace (b :: (l3 ++ [b0]))) = true
      rw [hh.2, Bool.true_and]
      exact ih hh.1

theorem ncs_main (v c2 : List Char) (hv : ',' ∉ v)
    (hc2 : noCommaSpace c2 = true) :
    noCommaSpace (' ' :: (v ++ ' ' :: '(' :: (c2 ++ [')']))) = true := by
  have h1 : noCommaSpace (c2 ++ [')']) = true :=
    ncs_append_one c2 ')' hc2 (by decide)
  have h2 : noCommaSpace ('(' :: (c2 ++ [')'])) = true :=
    ncs_cons_of_ne_comma '(' _ (by decide) h1
  have h3 : noCommaSpace (' ' :: '(' :: (c2 ++ [')'])) = true :=
    ncs_cons_of_ne_comma ' ' _ (by decide) h2
  have h4 : noCommaSpace (v ++ ' ' :: '(' :: (c2 ++ [')'])) = true :=
    ncs_of_append_no_comma v _ hv h3
  exact ncs_cons_of_ne_comma ' ' _ (by decide) h4

theorem g1_exact (t : List Char) :
    ∀ v c2, '\n' ∉ t → '\n' ∉ v → ',' ∉ v → '\n' ∉ c2 → '(' ∉ c2 →
      noCommaSpace c2 = true →
      g1 (t ++ ',' :: ' ' :: (v ++ ' ' :: '(' :: (c2 ++ [')']))) =
        some (t, v, c2) := by
  induction t with
  | nil =>
    intro v c2 _ hv hvc hc2 hp hcc
    have hstep : g1 (',' :: ' ' :: (v ++ ' ' :: '(' :: (c2 ++ [')']))) =
        match (g1 (' ' :: (v ++ ' ' :: '(' :: (c2 ++ [')'])))).map
            (fun p => (',' :: p.1, p.2)) with
        | some q => some q
        | none => (g2 (v ++ ' ' :: '(' :: (c2 ++ [')']))).map
            (fun p => (([] : List Char), p.1, p.2)) :=
      rfl
    show g1 (',' :: ' ' :: (v ++ ' ' :: '(' :: (c2 ++ [')']))) = some ([], v, c2)
    rw [hstep, g1_none_of_ncs _ (ncs_main v c2 hvc hcc), g2_exact v c2 hv hc2 hp]
    rfl
  | cons c t2 ih =>
    intro v c2 ht hv hvc hc2 hp hcc
    have hc : ¬ c = '\n' := fun he => ht (by simp [he])
    have hih := ih v c2 (fun hm => ht (List.mem_cons_of_mem _ hm)) hv hvc hc2 hp hcc
    show g1 (c :: (t2 ++ ',' :: ' ' :: (v ++ ' ' :: '(' :: (c2 ++ [')'])))) =
      some (c :: t2, v, c2)
    simp only [g1, if_neg hc, hih, Option.map_some']

theorem str_data_append (a b : String) : (a ++ b).data = a.data ++ b.data := rfl

theorem str_mk_data (s : String) : String.mk s.data = s := rfl

theorem tcLibEq_refl (r : TcLibraryReference) : tcLibEq r r = true := by
  unfold tcLibEq
  cases hv : r.version with
  | star => simp [pyVersionEqB, is_any_version, hv]
  | ver a => simp [pyVersionEqB, is_any_version, hv]

/-! ## Claims about parsing and round-tripping -/

/-- C4: `parse_string` fails with the invalid-format error exactly when
the text does not match the regex pattern or the captured version text,
not being `"*"`, fails numeric parsing; matching is characterised by a
newline-free decomposition `"<t>, <v> (<c>)<rest>"`; on success the
three captured groups are returned, with `"*"` kept as the wildcard and
other version texts parsed numerically; the spec's example parses to
its three fields. -/
theorem claim_C4_parse_string :
    (∀ s : String, parse_string s = Except.error PyError.invalidFormat ↔
      (g1 s.data = none ∨ ∃ t v c2, g1 s.data = some (t, v, c2) ∧
        v ≠ ['*'] ∧ parseVersion v = none))
    ∧ (∀ s : List Char, g1 s = none ↔
        ¬ ∃ t v c2 r, '\n' ∉ t ∧ '\n' ∉ v ∧ '\n' ∉ c2 ∧
          s = t ++ ',' :: ' ' :: (v ++ ' ' :: '(' :: (c2 ++ ')' :: r)))
    ∧ (∀ (s : String) (t v c2 : List Char), g1 s.data = some (t, v, c2) →
        (v = ['*'] →
          parse_string s = Except.ok (String.mk t, TcVersion.star, String.mk c2))
        ∧ (∀ rel, parseVersion v = some rel →
          parse_string s =
            Except.ok (String.mk t, TcVersion.ver rel, String.mk c2)))
    ∧ parse_string "Tc2_Standard, 3.3.3.0 (Beckhoff Automation GmbH)" =
        Except.ok ("Tc2_Standard", TcVersion.ver [3, 3, 3, 0],
          "Beckhoff Automation GmbH") := by
  refine ⟨?_, ?_, ?_, rfl⟩
  · intro s
    cases hg : g1 s.data with
    | none =>
      simp [parse_string, hg]
    | some p =>
      obtain ⟨t, v, c2⟩ := p
      simp only [parse_string, hg]
      by_cases hv : v = ['*']
      · rw [if_pos hv]
        constructor
        · intro h; cases h
        · rintro (h | ⟨t2, v2, c22, hg2, hne, _⟩)
          · cases h
          · have := Option.some_inj.mp hg2
            have hv2 : v2 = v := by
              have := congrArg (fun q => q.2.1) this
              simpa using this.symm
            exact absurd (hv2.trans hv) hne
      · rw [if_neg hv]
        cases hp : parseVersion v with
        | none =>
          constructor
          · intro _; exact Or.inr ⟨t, v, c2, rfl, hv, hp⟩
          · intro _; rfl
        | some rel =>
          constructor
          · intro h; cases h
          · rintro (h | ⟨t2, v2, c22, hg2, hne, hpv⟩)
            · cases h
            · have := Option.some_inj.mp hg2
              have hv2 : v2 = v := by
                have := congrArg (fun q => q.2.1) this
                simpa using this.symm
              rw [hv2, hp] at hpv
              cases hpv
  · intro s
    constructor
    · intro hnone
      rintro ⟨t, v, c2, r, ht, hv, hc2, hs⟩
      have := g1_complete t v c2 r ht hv hc2
      rw [← hs, hnone] at this
      simp at this
    · intro hne
      cases hg : g1 s with
      | none => rfl
      | some p =>
        obtain ⟨ht, hv, hc2, r, hr⟩ := g1_sound s p.1 p.2.1 p.2.2 (by rw [hg])
        exact absurd ⟨p.1, p.2.1, p.2.2, r, ht, hv, hc2, hr⟩ hne
  · intro s t v c2 hg
    constructor
    · intro hv
      simp only [parse_string, hg, if_pos hv]
    · intro rel hrel
      have hne : ¬ v = ['*'] := by
        intro he
        rw [he] at hrel
        cases hrel
      simp only [parse_string, hg, if_neg hne, hrel]

/-- C4 witness: a concrete reference string parses into its groups via
the success clause of the claim. -/
theorem claim_C4_witness :
    parse_string "A, 1.0 (B)" = Except.ok ("A", TcVersion.ver [1, 0], "B") := by
  have h := (claim_C4_parse_string.2.2.1 "A, 1.0 (B)"
    "A".data "1.0".data "B".data rfl).2 [1, 0] rfl
  exact h

/-- C6 (amended): `fromString (str ref) == ref` holds for every
reference whose title and company contain no comma-space sequence, no
parentheses and no newline characters, and whose version is the
wildcard or a nonempty numeric release (as every parsed version is);
the newline exclusion is forced by the counterexample below, since the
regex dot never matches a newline. -/
theorem claim_C6_roundtrip (r : TcLibraryReference)
    (_ht1 : noCommaSpace r.title.data = true)
    (_ht2 : '(' ∉ r.title.data) (_ht3 : ')' ∉ r.title.data)
    (ht4 : '\n' ∉ r.title.data)
    (hc1 : noCommaSpace r.company.data = true)
    (hc2 : '(' ∉ r.company.data) (_hc3 : ')' ∉ r.company.data)
    (hc4 : '\n' ∉ r.company.data)
    (hver : r.version = TcVersion.star ∨
      ∃ rel, r.version = TcVersion.ver rel ∧ rel ≠ []) :
    from_string (tcLibStr r) = Except.ok r ∧ tcLibEq r r = true := by
  refine ⟨?_, tcLibEq_refl r⟩
  have hdata : (tcLibStr r).data =
      r.title.data ++ ',' :: ' ' :: ((versionToString r.version).data
        ++ ' ' :: '(' :: (r.company.data ++ [')'])) := by
    show (r.title ++ ", " ++ versionToString r.version ++ " ("
      ++ r.company ++ ")").data = _
    simp only [str_data_append]
    simp [List.append_assoc]
  have hvn : '\n' ∉ (versionToString r.version).data ∧
      ',' ∉ (versionToString r.version).data := by
    rcases hver with hs | ⟨rel, hrel, _⟩
    · rw [hs]
      exact ⟨by decide, by decide⟩
    · rw [hrel]
      constructor
      · intro hm
        exact (renderRelease_safe rel '\n' hm).2.2.1 rfl
      · intro hm
        exact (renderRelease_safe rel ',' hm).1 rfl
  have hmatch : g1 (tcLibStr r).data =
      some (r.title.data, (versionToString r.version).data, r.company.data) := by
    rw [hdata]
    exact g1_exact r.title.data (versionToString r.version).data r.company.data
      ht4 hvn.1 hvn.2 hc4 hc2 hc1
  unfold from_string
  rcases hver with hs | ⟨rel, hrel, hne⟩
  · rw [hs] at hmatch
    simp only [parse_string, hmatch]
    rw [if_pos (show (versionToString TcVersion.star).data = ['*'] from rfl)]
    show Except.ok (TcLibraryReference.mk (String.mk r.title.data)
      TcVersion.star (String.mk r.company.data)) = Except.ok r
    rw [str_mk_data, str_mk_data, ← hs]
  · rw [hrel] at hmatch
    simp only [parse_string, hmatch]
    rw [if_neg (show ¬ (versionToString (TcVersion.ver rel)).data = ['*'] from
      renderRelease_ne_star rel)]
    rw [show (versionToString (TcVersion.ver rel)).data = renderRelease rel
      from rfl]
    rw [parseVersion_render rel hne]
    show Except.ok (TcLibraryReference.mk (String.mk r.title.data)
      (TcVersion.ver rel) (String.mk r.company.data)) = Except.ok r
    rw [str_mk_data, str_mk_data, ← hrel]

/-- C6 counterexample: a title containing a newline but no comma-space
sequence and no parentheses; rendering and re-parsing does not return
the reference but fails, because the regex dot never matches a newline. -/
theorem claim_C6_cex :
    noCommaSpace ("a\nb" : String).data = true
    ∧ '(' ∉ ("a\nb" : String).data ∧ ')' ∉ ("a\nb" : String).data
    ∧ from_string (tcLibStr
        (TcLibraryReference.mk "a\nb" (TcVersion.ver [1]) "c")) =
      Except.error PyError.invalidFormat := by
  refine ⟨by decide, by decide, by decide, rfl⟩

/-- C6 witness: the spec's example reference round-trips. -/
theorem claim_C6_witness :
    from_string (tcLibStr (TcLibraryReference.mk "Tc2_Standard"
        (TcVersion.ver [3, 3, 3, 0]) "Beckhoff Automation GmbH")) =
      Except.ok (TcLibraryReference.mk "Tc2_Standard"
        (TcVersion.ver [3, 3, 3, 0]) "Beckhoff Automation GmbH")
    ∧ tcLibEq (TcLibraryReference.mk "Tc2_Standard"
        (TcVersion.ver [3, 3, 3, 0]) "Beckhoff Automation GmbH")
      (TcLibraryReference.mk "Tc2_Standard"
        (TcVersion.ver [3, 3, 3, 0]) "Beckhoff Automation GmbH") = true :=
  claim_C6_roundtrip
    (TcLibraryReference.mk "Tc2_Standard" (TcVersion.ver [3, 3, 3, 0])
      "Beckhoff Automation GmbH")
    (by decide) (by decide) (by decide) (by decide)
    (by decide) (by decide) (by decide) (by decide)
    (Or.inr ⟨[3, 3, 3, 0], rfl, by decide⟩)

/-! ## Claims about the library constructor -/

theorem tcLibraryInit_fresh (fs : TcFileSystem) (reg : List String)
    (path : String) (hmem : fs.resolve path ∉ reg) :
    tcLibraryInit fs reg path =
      tcLibraryBody fs path (fs.resolve path :: reg) := by
  unfold tcLibraryInit
  rw [show registerPath reg (fs.resolve path)
    = Except.ok (fs.resolve path :: reg) from by simp [registerPath, hmem]]
  rfl

theorem tcLibraryBody_registry (fs : TcFileSystem) (path : String)
    (reg2in : List String) (res : TcLibraryReference) (reg2 : List String)
    (h : tcLibraryBody fs path reg2in = Except.ok (res, reg2)) :
    reg2 = reg2in := by
  unfold tcLibraryBody at h
  split at h
  · split at h
    · cases h
    · split at h
      · cases h
      · split at h
        · cases h
        · injection h with h3
          exact (congrArg Prod.snd h3).symm
  · split at h
    · cases h
    · split at h
      · cases h
      · injection h with h3
        exact (congrArg Prod.snd h3).symm

/-- C7: constructing a library instance for a path whose resolved form
is already bound in the process-wide registry fails with the
duplicate-path error, and every successful construction extends the
registry with the resolved path, preserving the invariant that no two
live instances share a resolved path (the registry stays duplicate
free). The `UniquePath` base class is not under `src/` and is modelled
from the spec. -/
theorem claim_C7_unique_path :
    (∀ (fs : TcFileSystem) (reg : List String) (path : String),
      fs.resolve path ∈ reg →
      tcLibraryInit fs reg path = Except.error PyError.duplicatePath)
    ∧ (∀ (fs : TcFileSystem) (reg : List String) (path : String)
        (res : TcLibraryReference) (reg2 : List String),
        reg.Nodup → tcLibraryInit fs reg path = Except.ok (res, reg2) →
        reg2 = fs.resolve path :: reg ∧ reg2.Nodup) := by
  constructor
  · intro fs reg path hmem
    unfold tcLibraryInit
    rw [show registerPath reg (fs.resolve path)
      = Except.error PyError.duplicatePath from by simp [registerPath, hmem]]
    rfl
  · intro fs reg path res reg2 hnd hinit
    by_cases hmem : fs.resolve path ∈ reg
    · have : tcLibraryInit fs reg path = Except.error PyError.duplicatePath := by
        unfold tcLibraryInit
        rw [show registerPath reg (fs.resolve path)
          = Except.error PyError.duplicatePath from by simp [registerPath, hmem]]
        rfl
      rw [this] at hinit
      cases hinit
    · rw [tcLibraryInit_fresh fs reg path hmem] at hinit
      have hr := tcLibraryBody_registry fs path _ res reg2 hinit
      exact ⟨hr, by rw [hr]; exact List.nodup_cons.mpr ⟨hmem, hnd⟩⟩

/-- C7 witness: a second construction for the already-registered path
fails. -/
theorem claim_C7_witness :
    tcLibraryInit
      ⟨fun p => p, fun _ => true, fun _ => false, fun _ => none,
        fun _ => none⟩
      ["/lib"] "/lib" = Except.error PyError.duplicatePath :=
  claim_C7_unique_path.1 _ ["/lib"] "/lib" (by simp)

/-- C8 (amended): for a directory path not already bound in the
registry and lacking a `browsercache` file directly inside it, the
constructor raises `FileNotFoundError` whose message names the
directory (the message decomposes around the path); for an already
bound path the duplicate-path error preempts (see the counterexample). -/
theorem claim_C8_missing_browsercache (fs : TcFileSystem)
    (reg : List String) (path : String)
    (hmem : fs.resolve path ∉ reg) (hd : fs.isDir path = true)
    (hex : fs.pathExists (path ++ "/browsercache") = false) :
    tcLibraryInit fs reg path = Except.error (PyError.fileNotFound
      ("Missing browsercache file in directory \x27" ++ path ++ "\x27"))
    ∧ ("Missing browsercache file in directory \x27" ++ path ++ "\x27").data
      = ("Missing browsercache file in directory \x27" : String).data
        ++ path.data ++ [Char.ofNat 39] := by
  constructor
  · rw [tcLibraryInit_fresh fs reg path hmem]
    unfold tcLibraryBody
    rw [if_pos hd, hex]
    rfl
  · rw [str_data_append, str_data_append]

/-- C8 counterexample: the same directory state (a directory with no
`browsercache` inside) but a path that is already registered: the
constructor raises the duplicate-path error, not `FileNotFoundError`. -/
theorem claim_C8_cex :
    (⟨fun p => p, fun _ => true, fun _ => false, fun _ => none,
        fun _ => none⟩ : TcFileSystem).isDir "/lib" = true
    ∧ (⟨fun p => p, fun _ => true, fun _ => false, fun _ => none,
        fun _ => none⟩ : TcFileSystem).pathExists "/lib/browsercache" = false
    ∧ tcLibraryInit
        ⟨fun p => p, fun _ => true, fun _ => false, fun _ => none,
          fun _ => none⟩
        ["/lib"] "/lib" = Except.error PyError.duplicatePath :=
  ⟨rfl, rfl, rfl⟩

/-- C8 witness: with a fresh registry, the missing `browsercache`
produces the file-not-found error naming the directory. -/
theorem claim_C8_witness :
    tcLibraryInit
      ⟨fun p => p, fun _ => true, fun _ => false, fun _ => none,
        fun _ => none⟩
      [] "/lib" = Except.error (PyError.fileNotFound
        ("Missing browsercache file in directory \x27" ++ "/lib" ++ "\x27")) :=
  (claim_C8_missing_browsercache _ [] "/lib" (by simp) rfl rfl).1

/-! ## Supporting facts about the spec-side selection -/

theorem verLtNum_irrefl (u : TcVersion) : verLtNum u u = false := by
  by_cases h : verLtNum u u = true
  · have := verLtNum_asymm u u h
    rw [this] at h
    cases h
  · simpa using h

theorem specLastMax_mem (xs : List TcLibraryReference) :
    ∀ x, xs.foldl specPickLater x ∈ x :: xs := by
  induction xs with
  | nil => intro x; simp
  | cons y ys ih =>
    intro x
    simp only [List.foldl_cons]
    rcases List.mem_cons.mp (ih (specPickLater x y)) with h | h
    · rw [h]
      unfold specPickLater
      by_cases hb : verLtNum y.version x.version = true
      · rw [if_pos hb]; simp
      · rw [if_neg hb]; simp
    · simp [h]

theorem specLastMax_isMax (xs : List TcLibraryReference) :
    ∀ x, numericV x.version = true →
      (∀ z ∈ xs, numericV z.version = true) →
      (verLtNum (xs.foldl specPickLater x).version x.version = false ∧
        ∀ z ∈ xs, verLtNum (xs.foldl specPickLater x).version z.version
          = false) := by
  induction xs with
  | nil =>
    intro x _ _
    exact ⟨verLtNum_irrefl _, by simp⟩
  | cons y ys ih =>
    intro x hx hall
    have hy : numericV y.version = true := hall y (by simp)
    have hys : ∀ z ∈ ys, numericV z.version = true :=
      fun z hz => hall z (List.mem_cons_of_mem _ hz)
    simp only [List.foldl_cons]
    by_cases hb : verLtNum y.version x.version = true
    · have hx2 : specPickLater x y = x := by
        unfold specPickLater; rw [if_pos hb]
      rw [hx2]
      obtain ⟨h1, h2⟩ := ih x hx hys
      refine ⟨h1, ?_⟩
      intro z hz
      rcases List.mem_cons.mp hz with rfl | hz2
      · by_cases hc : verLtNum (ys.foldl specPickLater x).version z.version = true
        · have := verLtNum_trans _ _ _ hc hb
          rw [this] at h1
          cases h1
        · simpa using hc
      · exact h2 z hz2
    · have hx2 : specPickLater x y = y := by
        unfold specPickLater; rw [if_neg hb]
      rw [hx2]
      obtain ⟨h1, h2⟩ := ih y hy hys
      refine ⟨?_, ?_⟩
      · by_cases hc : verLtNum (ys.foldl specPickLater y).version x.version = true
        · have hb2 : verLtNum y.version x.version = false := by simpa using hb
          have := verLtNum_connex _ _ _ hc hb2 hy
          rw [this] at h1
          cases h1
        · simpa using hc
      · intro z hz
        rcases List.mem_cons.mp hz with rfl | hz2
        · exact h1
        · exact h2 z hz2
